import Mathlib

/-!
Verification development for the `browse` HTTP file server (src/main.go).

The server resolves a URL path to a filesystem path, classifies it as a
file, a directory, or missing, and either delegates to `http.FileServer`
or renders a directory listing from an HTML template.

This file gives a shallow embedding of the program's pure logic:

* `Browse.splitSlash` / `Browse.joinSlash` / `Browse.cleanChars` model
  Go's `path/filepath.Clean` for the unix separator;
* `Browse.filepathAbs` models `filepath.Abs` with the process working
  directory passed explicitly (the program never changes directory);
* `Browse.trimPrefixStr` models `strings.TrimPrefix`;
* `Browse.sprintfNoArgs` models `fmt.Sprintf(format)` called with a
  format string and no further arguments, as in `abs` (main.go line 98):
  literal text is copied, `%%` prints `%`, and a verb with no argument
  prints `%!v(MISSING)`;
* `Browse.abs` is the program's `abs` helper (main.go lines 94-99);
* `Browse.filter`, `Browse.filterFiles`, `Browse.splitFiles`,
  `Browse.mkListing` model the listing construction (lines 76-92,
  101-122, 156-167);
* `Browse.handleDirectory`, `Browse.handleServe`, `Browse.serveRequest`
  model the request handling over oracles for the filesystem outcomes
  (`os.Stat`, `ioutil.ReadDir`) and template execution, with an explicit
  `ResponseWriter` state and a trace of filesystem operations;
* `Browse.mainStartup` models the startup of `main` (lines 59-74) with
  Go's scoping rules for `var` and `:=` made explicit, in order to
  reason about the package-level `Root` variable.
-/

namespace Browse

/-- Split a character list on `'/'`. `splitSlash "a/b" = ["a", "b"]`;
empty segments are kept (`splitSlash "/a" = ["", "a"]`). -/
def splitSlash : List Char → List (List Char)
  | [] => [[]]
  | c :: rest =>
    if c = '/' then [] :: splitSlash rest
    else
      match splitSlash rest with
      | [] => [[c]]
      | s :: ss => (c :: s) :: ss

/-- Join segments with `'/'`. -/
def joinSlash : List (List Char) → List Char
  | [] => []
  | [s] => s
  | s :: t :: ss => s ++ '/' :: joinSlash (t :: ss)

/-- One step of `filepath.Clean`'s element loop: drop empty and `.`
elements, have `..` pop the last kept element (or be kept itself at the
start of a relative path, or be dropped at the root of a rooted path),
and keep every other element. -/
def cleanStep (rooted : Bool) (acc : List (List Char)) (seg : List Char) : List (List Char) :=
  if seg = [] ∨ seg = ['.'] then acc
  else if seg = ['.', '.'] then
    match acc with
    | [] => if rooted then [] else [['.', '.']]
    | top :: rest => if top = ['.', '.'] then ['.', '.'] :: acc else rest
  else seg :: acc

/-- `filepath.Clean`'s element loop, with the kept elements accumulated
in reverse order. -/
def cleanLoop (rooted : Bool) (acc : List (List Char)) (segs : List (List Char)) :
    List (List Char) :=
  segs.foldl (cleanStep rooted) acc

/-- The cleaned segments of a path, in order. -/
def cleanSegs (rooted : Bool) (segs : List (List Char)) : List (List Char) :=
  (cleanLoop rooted [] segs).reverse

/-- `filepath.Clean` (unix) over character lists: the empty path cleans
to `.`; a rooted path keeps its leading `/`; a relative path whose
elements all vanish cleans to `.`. -/
def cleanChars : List Char → List Char
  | [] => ['.']
  | c :: rest =>
    if c = '/' then '/' :: joinSlash (cleanSegs true (splitSlash (c :: rest)))
    else
      let segs := cleanSegs false (splitSlash (c :: rest))
      if segs = [] then ['.'] else joinSlash segs

/-- Go's `path/filepath.Clean`. -/
def filepathClean (s : String) : String := ⟨cleanChars s.data⟩

/-- Go's `path/filepath.IsAbs` (unix): the path starts with `/`. -/
def isAbsPath (s : String) : Bool :=
  match s.data with
  | [] => false
  | c :: _ => c = '/'

/-- Go's `path/filepath.Abs`, with the working directory `cwd` (the
result of `os.Getwd`) passed explicitly: an absolute path is cleaned,
a relative path is joined to `cwd` and cleaned (`filepath.Join` skips
the empty leading element when `cwd` is empty). -/
def filepathAbs (cwd path : String) : String :=
  if isAbsPath path then filepathClean path
  else if cwd = "" then filepathClean path
  else filepathClean (cwd ++ "/" ++ path)

/-- If `pre` is a prefix of `s`, return the remaining suffix. -/
def trimPrefixC : List Char → List Char → Option (List Char)
  | s, [] => some s
  | [], _ :: _ => none
  | c :: s, p :: ps => if c = p then trimPrefixC s ps else none

/-- Go's `strings.TrimPrefix`: drop `pre` from the front of `s` when it
is a prefix, otherwise return `s` unchanged. -/
def trimPrefixStr (s pre : String) : String :=
  match trimPrefixC s.data pre.data with
  | some rest => ⟨rest⟩
  | none => s

/-- Go's `strings.HasPrefix`. -/
def hasPrefixStr (s pre : String) : Bool :=
  (trimPrefixC s.data pre.data).isSome

/-- Parser state for a `%` conversion specification in `fmt`:
flags, then width digits, then an optional `.` and precision digits. -/
inductive PState where
  | flags
  | width
  | prec
deriving DecidableEq, Repr

/-- Whether `c` is one of `fmt`'s flag characters. -/
def isFlagChar (c : Char) : Bool :=
  c = '+' ∨ c = '-' ∨ c = '#' ∨ c = ' ' ∨ c = '0'

/-- Advance the conversion-specification parser by one character, or
report (`none`) that the character is the verb. -/
def stepFmt : PState → Char → Option PState
  | .flags, c =>
    if isFlagChar c then some .flags
    else if c.isDigit then some .width
    else if c = '.' then some .prec
    else none
  | .width, c =>
    if c.isDigit then some .width
    else if c = '.' then some .prec
    else none
  | .prec, c =>
    if c.isDigit then some .prec
    else none

/-- `fmt.Sprintf` with no arguments beyond the format string, as a
character transducer: `st = none` is literal mode; `st = some p` means
we are inside a `%` conversion. A verb with no argument available
prints `%!v(MISSING)`; a trailing `%` prints `%!(NOVERB)`; `%%` prints
`%`. -/
def sprintfGo : Option PState → List Char → List Char
  | none, [] => []
  | none, c :: rest =>
    if c = '%' then sprintfGo (some .flags) rest
    else c :: sprintfGo none rest
  | some _, [] => ('%' :: '!' :: '(' :: 'N' :: 'O' :: 'V' :: 'E' :: 'R' :: 'B' :: ')' :: [])
  | some st, c :: rest =>
    match stepFmt st c with
    | some st' => sprintfGo (some st') rest
    | none =>
      if c = '%' then '%' :: sprintfGo none rest
      else '%' :: '!' :: c :: ('(' :: 'M' :: 'I' :: 'S' :: 'S' :: 'I' :: 'N' :: 'G' :: ')' :: [])
             ++ sprintfGo none rest

/-- `fmt.Sprintf(s)` with no further arguments. -/
def sprintfNoArgs (s : String) : String := ⟨sprintfGo none s.data⟩

/-- The program's `abs` helper (main.go lines 94-99): absolutize `dir`
and `root` (errors from `filepath.Abs` are discarded), strip the root
prefix, prepend `/`, clean, and pass the result through `fmt.Sprintf`
as a format string. `cwd` is the process working directory consulted
by `filepath.Abs`. -/
def abs (cwd dir root : String) : String :=
  let d := filepathAbs cwd dir
  let r := filepathAbs cwd root
  let path := trimPrefixStr d r
  sprintfNoArgs (filepathClean ("/" ++ path))

/-- The part of `os.FileInfo` the program consults: `Name()` and
`IsDir()`. -/
structure FileInfo where
  name : String
  isDir : Bool
deriving DecidableEq, Repr

/-- The `Listing` view model (main.go lines 52-57). -/
structure Listing where
  Root : String
  Dir : String
  Directories : List FileInfo
  Files : List FileInfo
deriving DecidableEq, Repr

/-- `filter` (main.go lines 76-84): keep, in order, the entries
satisfying the predicate. -/
def filter (files : List FileInfo) (f : FileInfo → Bool) : List FileInfo :=
  match files with
  | [] => []
  | v :: rest => if f v then v :: filter rest f else filter rest f

/-- `filterFiles` (main.go lines 86-92): drop hidden entries, whose
name starts with `.`. -/
def filterFiles (files : List FileInfo) : List FileInfo :=
  filter files (fun fi => !(hasPrefixStr fi.name "."))

/-- `splitFiles` (main.go lines 156-167): partition by the predicate,
preserving relative order within each group. -/
def splitFiles (vs : List FileInfo) (f : FileInfo → Bool) : List FileInfo × List FileInfo :=
  match vs with
  | [] => ([], [])
  | v :: rest =>
    let (a, b) := splitFiles rest f
    if f v then (v :: a, b) else (a, v :: b)

/-- The `Listing` built by `handleDirectory` (main.go lines 107-117)
from the raw directory contents: filter out hidden entries, then split
into directories and files. -/
def mkListing (root path : String) (contents : List FileInfo) : Listing :=
  let contents' := filterFiles contents
  let (directories, files) := splitFiles contents' (fun fi => fi.isDir)
  { Root := root, Dir := path, Directories := directories, Files := files }

/-- The hyperlink target the template computes for a child entry
(main.go lines 28, 32, 37): `{{printf "%s/%s" $dir .Name | clean}}`
with `$dir := abs .Dir .Root`. -/
def linkTarget (cwd dir root name : String) : String :=
  filepathClean (abs cwd dir root ++ "/" ++ name)

/-- The filesystem path a request for `urlPath` is statted at, in
absolute form: `http.StripPrefix("/", ...)` removes the leading slash,
`handleServe` cleans the remainder (line 126), and the operating
system resolves the (relative) result against the process working
directory. -/
def resolveFS (cwd urlPath : String) : String :=
  filepathAbs cwd (filepathClean (trimPrefixStr urlPath "/"))

/-! ### Request handling

The filesystem and the template engine are modelled as oracles: a
`StatOutcome` for `os.Stat`, a `ReadDirOutcome` for `ioutil.ReadDir`,
and an `ExecOutcome` for `Template.ExecuteTemplate` (which streams its
output to the `ResponseWriter` as it executes, so a failure can leave
part of the output already written). -/

/-- Outcome of `os.Stat`: success (with the directory bit), a
"does not exist" error, or any other error (in which case the returned
`FileInfo` interface is nil). -/
inductive StatOutcome where
  | ok (isDir : Bool)
  | errNotExist
  | errOther
deriving DecidableEq, Repr

/-- Outcome of `ioutil.ReadDir`. -/
inductive ReadDirOutcome where
  | ok (contents : List FileInfo)
  | err
deriving DecidableEq, Repr

/-- Outcome of `Template.ExecuteTemplate` on the response writer:
either the full rendered page was written, or execution failed after
`written` bytes had already been streamed to the writer. -/
inductive ExecOutcome where
  | ok (rendered : String)
  | fail (written : String)
deriving DecidableEq, Repr

/-- The observable state of an `http.ResponseWriter`: the status code
actually sent (`none` until the first `WriteHeader` or `Write`), and
the accumulated body. -/
structure RW where
  status : Option Nat
  body : String
deriving DecidableEq, Repr

/-- A fresh response writer. -/
def freshRW : RW := { status := none, body := "" }

/-- `ResponseWriter.Write`: the first write implicitly sends status
200; the bytes are appended to the body. -/
def rwWrite (w : RW) (s : String) : RW :=
  { status := match w.status with | none => some 200 | st => st,
    body := w.body ++ s }

/-- `ResponseWriter.WriteHeader`: sets the status, unless one was
already sent (a superfluous call changes nothing). -/
def writeHeader (w : RW) (code : Nat) : RW :=
  { w with status := match w.status with | none => some code | st => st }

/-- `http.Error(w, text, code)`: `WriteHeader(code)` then
`Fprintln(w, text)`. -/
def httpError (w : RW) (text : String) (code : Nat) : RW :=
  rwWrite (writeHeader w code) (text ++ "\n")

/-- `http.NotFound`. -/
def notFoundRW (w : RW) : RW :=
  httpError w "404 page not found" 404

/-- A filesystem operation performed while handling a request. -/
inductive FSOp where
  | statOp (path : String)
  | readDirOp (path : String)
  | serveFileOp (path : String)
deriving DecidableEq, Repr

/-- Whether an operation is a plain stat. -/
def isStatOp : FSOp → Bool
  | .statOp _ => true
  | _ => false

/-- `handleDirectory` (main.go lines 101-122): read the directory
(500 on failure), build the `Listing`, execute the template into the
writer; on a template error, log it and call `http.Error(w, ..., 500)`
after whatever the template had already written. Returns the writer,
the `Listing` handed to the template (if one was built), and whether
`log.Println` ran. -/
def handleDirectory (root path : String) (rd : ReadDirOutcome) (ex : ExecOutcome)
    (w : RW) : RW × Option Listing × Bool :=
  match rd with
  | .err => (httpError w "Internal Server Error" 500, none, false)
  | .ok contents =>
    let list := mkListing root path contents
    match ex with
    | .ok rendered => (rwWrite w rendered, some list, false)
    | .fail written =>
      let w' := if written = "" then w else rwWrite w written
      (httpError w' "Internal Server Error" 500, some list, true)

/-- `handleServe` (main.go lines 124-146), after `http.StripPrefix`
has removed the leading `/`: clean the path, stat it; "not exist"
errors produce `http.NotFound`; any other stat error is ignored and
the nil `FileInfo` is dereferenced by `info.IsDir()`, a panic, which
we model as `none` (no response is produced by the handler).
Directories are read twice (the stray `ioutil.ReadDir` on line 139 is
discarded, then `handleDirectory` reads again); files are delegated to
the `http.FileServer` collaborator. The trace records the filesystem
operations performed. -/
def handleServe (root strippedPath : String) (st : StatOutcome) (rd : ReadDirOutcome)
    (ex : ExecOutcome) (w : RW) : Option (RW × Option Listing × Bool × List FSOp) :=
  let path := filepathClean strippedPath
  match st with
  | .errNotExist => some (notFoundRW w, none, false, [.statOp path])
  | .errOther => none
  | .ok isDir =>
    if isDir then
      let (w', l, logged) := handleDirectory root path rd ex w
      some (w', l, logged, [.statOp path, .readDirOp path, .readDirOp path])
    else
      some (w, none, false, [.statOp path, .serveFileOp path])

/-- A full request through `http.StripPrefix("/", ...)` (main.go line
69): if the URL path does not start with `/` the wrapper itself
answers 404 and the handler never runs (no filesystem access). -/
def serveRequest (root urlPath : String) (st : StatOutcome) (rd : ReadDirOutcome)
    (ex : ExecOutcome) (w : RW) : Option (RW × Option Listing × Bool × List FSOp) :=
  let p := trimPrefixStr urlPath "/"
  if p.length < urlPath.length then handleServe root p st rd ex w
  else some (notFoundRW w, none, false, [])

/-! ### Startup and the package-level `Root`

`main` (lines 59-74) runs `var err error` and then
`Root, err := os.Getwd()`. Go's short variable declaration `:=`
creates a new variable for every name on its left-hand side that is
not already declared in the same block; only same-block names are
re-assigned. The package-level `Root` is not in `main`'s block, so
`:=` declares a new local `Root` that shadows it. We embed the two
binding forms explicitly. -/

/-- A variable environment: package-level globals and the current
function block's locals (innermost first). -/
structure Env where
  globals : List (String × String)
  locals : List (String × String)
deriving DecidableEq, Repr

/-- Look a name up in an association list. -/
def lookupVar (l : List (String × String)) (n : String) : Option String :=
  match l with
  | [] => none
  | (k, v) :: rest => if k = n then some v else lookupVar rest n

/-- Update a name in an association list (no-op when absent). -/
def updateVar (l : List (String × String)) (n v : String) : List (String × String) :=
  match l with
  | [] => []
  | (k, old) :: rest => if k = n then (k, v) :: rest else (k, old) :: updateVar rest n v

/-- Go's plain assignment `n = v`: writes the innermost declaration of
`n` — a local if one exists, otherwise the global. -/
def assign (e : Env) (n v : String) : Env :=
  if (lookupVar e.locals n).isSome then { e with locals := updateVar e.locals n v }
  else { e with globals := updateVar e.globals n v }

/-- Go's short variable declaration `n1, n2 := ...`: every name
already declared in the current block is re-assigned; every other name
becomes a new local of the current block. Globals are never written. -/
def shortVarDecl (e : Env) (binds : List (String × String)) : Env :=
  { e with
    locals := binds.foldl
      (fun ls b => if (lookupVar ls b.1).isSome then updateVar ls b.1 b.2 else b :: ls)
      e.locals }

/-- The environment at program start: the package-level
`var Root string` holds the zero value `""`. -/
def initialEnv : Env := { globals := [("Root", "")], locals := [] }

/-- The environment after `main`'s startup sequence, given that
`os.Getwd()` returns `cwd`: `var err error` declares a local, then
`Root, err := os.Getwd()` runs as a short variable declaration. -/
def mainStartup (cwd : String) : Env :=
  let e0 := initialEnv
  let e1 := { e0 with locals := ("err", "") :: e0.locals }
  shortVarDecl e1 [("Root", cwd), ("err", "")]

/-- Name resolution as Go's compiler performs it inside `main` after
line 62: locals shadow globals. This is what `http.Dir(Root)` on line
68 reads. -/
def resolveVar (e : Env) (n : String) : Option String :=
  match lookupVar e.locals n with
  | some v => some v
  | none => lookupVar e.globals n

/-! ### Spec-side definitions

Used to compare the code against the specification's wording, and to
build well-formed concrete paths for the general theorems. -/

/-- Modelled from the spec: the "relativize" helper of section 4.1,
"given an absolute directory path and the serving root, strip the root
prefix and re-clean to produce a rooted path beginning with `/`" —
with no `Sprintf` pass. -/
def relativizeSpec (cwd dir root : String) : String :=
  filepathClean ("/" ++ trimPrefixStr (filepathAbs cwd dir) (filepathAbs cwd root))

/-- A path element that `Clean` keeps verbatim. -/
def PushSeg (s : List Char) : Prop :=
  s ≠ [] ∧ s ≠ ['.'] ∧ s ≠ ['.', '.']

instance (s : List Char) : Decidable (PushSeg s) := by
  unfold PushSeg; infer_instance

/-- A well-formed file-name segment: kept by `Clean`, free of the path
separator, and free of `%` (which `fmt.Sprintf` would treat as a
conversion). -/
def GoodSeg (s : List Char) : Prop :=
  PushSeg s ∧ '/' ∉ s ∧ '%' ∉ s

instance (s : List Char) : Decidable (GoodSeg s) := by
  unfold GoodSeg; infer_instance

/-- The absolute path with the given segments: `/a/b/...`. -/
def mkAbsPath (segs : List (List Char)) : String := ⟨'/' :: joinSlash segs⟩

/-- The relative path with the given segments, `"."` when there are
none — exactly the shapes `handleServe`'s cleaned request path takes
for well-formed requests. -/
def mkRelPath (segs : List (List Char)) : String :=
  if segs = [] then "." else ⟨joinSlash segs⟩

/-! ### Lemmas about the segment machinery -/

theorem splitSlash_ne_nil (cs : List Char) : splitSlash cs ≠ [] := by
  induction cs with
  | nil => simp [splitSlash]
  | cons c rest ih =>
    by_cases hc : c = '/'
    · simp [splitSlash, hc]
    · simp only [splitSlash, if_neg hc]
      cases h : splitSlash rest with
      | nil => simp
      | cons s ss => simp

theorem splitSlash_append (xs ys : List Char) :
    splitSlash (xs ++ '/' :: ys) = splitSlash xs ++ splitSlash ys := by
  induction xs with
  | nil => simp [splitSlash]
  | cons c rest ih =>
    by_cases hc : c = '/'
    · simp [splitSlash, hc, ih]
    · simp only [List.cons_append, splitSlash, if_neg hc]
      rw [show splitSlash (rest.append ('/' :: ys)) = splitSlash rest ++ splitSlash ys from ih]
      cases h : splitSlash rest with
      | nil => exact absurd h (splitSlash_ne_nil rest)
      | cons s ss => simp

theorem splitSlash_no_slash (cs : List Char) (h : '/' ∉ cs) : splitSlash cs = [cs] := by
  induction cs with
  | nil => simp [splitSlash]
  | cons c rest ih =>
    have hc : c ≠ '/' := fun hh => h (by simp [hh])
    have hr : '/' ∉ rest := fun hh => h (by simp [hh])
    simp [splitSlash, hc, ih hr]

theorem mem_splitSlash_no_slash (cs : List Char) :
    ∀ s ∈ splitSlash cs, '/' ∉ s := by
  induction cs with
  | nil => intro s hs; simp [splitSlash] at hs; simp [hs]
  | cons c rest ih =>
    intro s hs
    by_cases hc : c = '/'
    · simp only [splitSlash, if_pos hc, List.mem_cons] at hs
      rcases hs with h | h
      · simp [h]
      · exact ih s h
    · simp only [splitSlash, if_neg hc] at hs
      cases h : splitSlash rest with
      | nil => exact absurd h (splitSlash_ne_nil rest)
      | cons t ts =>
        rw [h] at hs
        simp only [List.mem_cons] at hs
        rcases hs with h1 | h1
        · subst h1
          intro hmem
          rcases List.mem_cons.mp hmem with h2 | h2
          · exact hc h2.symm
          · exact ih t (h ▸ List.mem_cons_self t ts) h2
        · exact ih s (h ▸ List.mem_cons_of_mem t h1)

theorem mem_of_mem_splitSlash (cs : List Char) :
    ∀ s ∈ splitSlash cs, ∀ c ∈ s, c ∈ cs := by
  induction cs with
  | nil => intro s hs; simp [splitSlash] at hs; simp [hs]
  | cons c rest ih =>
    intro s hs x hx
    by_cases hc : c = '/'
    · simp only [splitSlash, if_pos hc, List.mem_cons] at hs
      rcases hs with h | h
      · subst h; simp at hx
      · exact List.mem_cons_of_mem c (ih s h x hx)
    · simp only [splitSlash, if_neg hc] at hs
      cases h : splitSlash rest with
      | nil => exact absurd h (splitSlash_ne_nil rest)
      | cons t ts =>
        rw [h] at hs
        rcases List.mem_cons.mp hs with h1 | h1
        · subst h1
          rcases List.mem_cons.mp hx with h2 | h2
          · simp [h2]
          · exact List.mem_cons_of_mem c (ih t (h ▸ List.mem_cons_self t ts) x h2)
        · exact List.mem_cons_of_mem c (ih s (h ▸ List.mem_cons_of_mem t h1) x hx)

theorem joinSlash_cons_cons (s t : List Char) (ss : List (List Char)) :
    joinSlash (s :: t :: ss) = s ++ '/' :: joinSlash (t :: ss) := rfl

theorem splitSlash_joinSlash (segs : List (List Char)) (h1 : segs ≠ [])
    (h2 : ∀ s ∈ segs, '/' ∉ s) : splitSlash (joinSlash segs) = segs := by
  induction segs with
  | nil => exact absurd rfl h1
  | cons s rest ih =>
    cases rest with
    | nil =>
      simp only [joinSlash]
      exact splitSlash_no_slash s (h2 s (by simp))
    | cons t ts =>
      rw [joinSlash_cons_cons, splitSlash_append,
        splitSlash_no_slash s (h2 s (by simp)),
        ih (by simp) (fun u hu => h2 u (List.mem_cons_of_mem s hu))]
      rfl

theorem mem_joinSlash (segs : List (List Char)) :
    ∀ c ∈ joinSlash segs, c = '/' ∨ ∃ s ∈ segs, c ∈ s := by
  induction segs with
  | nil => intro c hc; simp [joinSlash] at hc
  | cons s rest ih =>
    intro c hc
    cases rest with
    | nil =>
      right; exact ⟨s, by simp, by simpa [joinSlash] using hc⟩
    | cons t ts =>
      rw [joinSlash_cons_cons] at hc
      rcases List.mem_append.mp hc with h | h
      · right; exact ⟨s, by simp, h⟩
      · rcases List.mem_cons.mp h with h1 | h1
        · left; exact h1
        · rcases ih c h1 with h2 | ⟨u, hu, hcu⟩
          · left; exact h2
          · right; exact ⟨u, List.mem_cons_of_mem s hu, hcu⟩

theorem joinSlash_append (a b : List (List Char)) (ha : a ≠ []) (hb : b ≠ []) :
    joinSlash (a ++ b) = joinSlash a ++ '/' :: joinSlash b := by
  induction a with
  | nil => exact absurd rfl ha
  | cons s rest ih =>
    cases rest with
    | nil =>
      cases b with
      | nil => exact absurd rfl hb
      | cons t ts => simp [joinSlash_cons_cons, joinSlash]
    | cons t ts =>
      have : (s :: t :: ts) ++ b = s :: ((t :: ts) ++ b) := rfl
      rw [this]
      have h2 : (t :: ts) ++ b = t :: (ts ++ b) := rfl
      rw [h2]
      rw [joinSlash_cons_cons s t (ts ++ b)]
      rw [← h2, ih (by simp), joinSlash_cons_cons]
      simp

theorem joinSlash_head (s : List Char) (ss : List (List Char)) (hs : s ≠ []) :
    (joinSlash (s :: ss)).head? = s.head? := by
  cases ss with
  | nil => simp [joinSlash]
  | cons t ts =>
    rw [joinSlash_cons_cons]
    cases s with
    | nil => exact absurd rfl hs
    | cons c cs => simp

/-! ### Lemmas about `cleanLoop` -/

theorem cleanLoop_append (r : Bool) (acc : List (List Char)) (l1 l2 : List (List Char)) :
    cleanLoop r acc (l1 ++ l2) = cleanLoop r (cleanLoop r acc l1) l2 := by
  unfold cleanLoop
  rw [List.foldl_append]

theorem cleanLoop_cons (r : Bool) (acc : List (List Char)) (s : List Char)
    (l : List (List Char)) :
    cleanLoop r acc (s :: l) = cleanLoop r (cleanStep r acc s) l := rfl

theorem cleanStep_nil_seg (r : Bool) (acc : List (List Char)) :
    cleanStep r acc [] = acc := by simp [cleanStep]

theorem cleanStep_dot (r : Bool) (acc : List (List Char)) :
    cleanStep r acc ['.'] = acc := by simp [cleanStep]

theorem cleanStep_push (r : Bool) (acc : List (List Char)) (s : List Char)
    (h : PushSeg s) : cleanStep r acc s = s :: acc := by
  obtain ⟨h1, h2, h3⟩ := h
  simp [cleanStep, h1, h2, h3]

theorem cleanLoop_push (r : Bool) (segs : List (List Char)) :
    ∀ acc, (∀ s ∈ segs, PushSeg s) → cleanLoop r acc segs = segs.reverse ++ acc := by
  induction segs with
  | nil => intro acc _; simp [cleanLoop]
  | cons s rest ih =>
    intro acc h
    rw [cleanLoop_cons, cleanStep_push r acc s (h s (by simp)),
      ih (s :: acc) (fun u hu => h u (List.mem_cons_of_mem s hu))]
    simp

theorem cleanStep_dotdot_nil (r : Bool) :
    cleanStep r [] ['.', '.'] = if r then [] else [['.', '.']] := by
  simp [cleanStep]

theorem cleanStep_dotdot_cons (r : Bool) (top : List Char) (rest : List (List Char))
    (h : top ≠ ['.', '.']) : cleanStep r (top :: rest) ['.', '.'] = rest := by
  simp [cleanStep, h]

theorem cleanStep_dotdot_cons_dd (r : Bool) (rest : List (List Char)) :
    cleanStep r (['.', '.'] :: rest) ['.', '.'] = ['.', '.'] :: ['.', '.'] :: rest := by
  simp [cleanStep]

theorem cleanStep_cases (r : Bool) (acc : List (List Char)) (seg : List Char) :
    ∀ s ∈ cleanStep r acc seg, s = seg ∨ s ∈ acc := by
  intro s hs
  by_cases h1 : seg = [] ∨ seg = ['.']
  · rw [show cleanStep r acc seg = acc by unfold cleanStep; rw [if_pos h1]] at hs
    right; exact hs
  · by_cases h2 : seg = ['.', '.']
    · subst h2
      cases acc with
      | nil =>
        rw [cleanStep_dotdot_nil] at hs
        cases r with
        | false => simp at hs; left; exact hs
        | true => simp at hs
      | cons top rest =>
        by_cases h3 : top = ['.', '.']
        · subst h3
          rw [cleanStep_dotdot_cons_dd] at hs
          rcases List.mem_cons.mp hs with h4 | h4
          · left; exact h4
          · right; exact h4
        · rw [cleanStep_dotdot_cons r top rest h3] at hs
          right; exact List.mem_cons_of_mem top hs
    · push_neg at h1
      rw [cleanStep_push r acc seg ⟨h1.1, h1.2, h2⟩] at hs
      rcases List.mem_cons.mp hs with h3 | h3
      · left; exact h3
      · right; exact h3

theorem cleanLoop_rooted_inv (segs : List (List Char)) :
    ∀ acc, (∀ s ∈ segs, '/' ∉ s) → (∀ s ∈ acc, PushSeg s ∧ '/' ∉ s) →
      ∀ s ∈ cleanLoop true acc segs, PushSeg s ∧ '/' ∉ s := by
  induction segs with
  | nil => intro acc _ hacc; exact hacc
  | cons seg rest ih =>
    intro acc hsegs hacc
    rw [cleanLoop_cons]
    refine ih (cleanStep true acc seg)
      (fun u hu => hsegs u (List.mem_cons_of_mem seg hu)) ?_
    intro s hs
    by_cases h1 : seg = [] ∨ seg = ['.']
    · rw [show cleanStep true acc seg = acc by unfold cleanStep; rw [if_pos h1]] at hs
      exact hacc s hs
    · by_cases h2 : seg = ['.', '.']
      · subst h2
        cases hacc' : acc with
        | nil =>
          rw [hacc'] at hs
          rw [cleanStep_dotdot_nil] at hs
          simp at hs
        | cons top rest' =>
          have htop : PushSeg top ∧ '/' ∉ top := hacc top (by rw [hacc']; simp)
          rw [hacc', cleanStep_dotdot_cons true top rest' htop.1.2.2] at hs
          exact hacc s (by rw [hacc']; exact List.mem_cons_of_mem top hs)
      · push_neg at h1
        rw [cleanStep_push true acc seg ⟨h1.1, h1.2, h2⟩] at hs
        rcases List.mem_cons.mp hs with h3 | h3
        · subst h3
          exact ⟨⟨h1.1, h1.2, h2⟩, hsegs s (by simp)⟩
        · exact hacc s h3

theorem mem_cleanLoop (segs : List (List Char)) :
    ∀ acc r, ∀ s ∈ cleanLoop r acc segs, s ∈ acc ∨ s ∈ segs := by
  induction segs with
  | nil => intro acc r s hs; left; exact hs
  | cons seg rest ih =>
    intro acc r s hs
    rw [cleanLoop_cons] at hs
    rcases ih (cleanStep r acc seg) r s hs with h | h
    · rcases cleanStep_cases r acc seg s h with h1 | h1
      · right; exact List.mem_cons.mpr (Or.inl h1)
      · left; exact h1
    · right; exact List.mem_cons_of_mem seg h

/-! ### Lemmas about `cleanChars` and `filepathClean` -/

theorem cleanChars_rooted_eq (rest : List Char) :
    cleanChars ('/' :: rest) = '/' :: joinSlash (cleanSegs true (splitSlash ('/' :: rest))) := by
  simp [cleanChars]

theorem cleanChars_rel_eq (c : Char) (rest : List Char) (hc : c ≠ '/') :
    cleanChars (c :: rest) =
      (if cleanSegs false (splitSlash (c :: rest)) = [] then ['.']
       else joinSlash (cleanSegs false (splitSlash (c :: rest)))) := by
  simp [cleanChars, hc]

theorem cleanSegs_empty_seg (r : Bool) (l : List (List Char)) :
    cleanSegs r ([] :: l) = cleanSegs r l := by
  simp [cleanSegs, cleanLoop_cons, cleanStep_nil_seg]

theorem cleanSegs_push (r : Bool) (segs : List (List Char))
    (h : ∀ s ∈ segs, PushSeg s) : cleanSegs r segs = segs := by
  simp [cleanSegs, cleanLoop_push r segs [] h]

theorem cleanChars_rooted_fixed (segs : List (List Char))
    (h : ∀ s ∈ segs, PushSeg s ∧ '/' ∉ s) :
    cleanChars ('/' :: joinSlash segs) = '/' :: joinSlash segs := by
  cases segs with
  | nil => decide
  | cons s rest =>
    have hsp : splitSlash (joinSlash (s :: rest)) = s :: rest :=
      splitSlash_joinSlash _ (by simp) (fun u hu => (h u hu).2)
    rw [cleanChars_rooted_eq,
      show splitSlash ('/' :: joinSlash (s :: rest)) = [] :: (s :: rest) by
        simp [splitSlash, hsp],
      cleanSegs_empty_seg, cleanSegs_push true _ (fun u hu => (h u hu).1)]

theorem cleanChars_rooted_idem (cs : List Char) :
    cleanChars (cleanChars ('/' :: cs)) = cleanChars ('/' :: cs) := by
  rw [cleanChars_rooted_eq cs]
  apply cleanChars_rooted_fixed
  intro s hs
  have hmem : s ∈ cleanLoop true [] (splitSlash ('/' :: cs)) := by
    simpa [cleanSegs] using hs
  exact cleanLoop_rooted_inv _ [] (mem_splitSlash_no_slash _) (by simp) s hmem

theorem cleanChars_trailing (c : Char) (rest : List Char) :
    cleanChars (c :: rest ++ ['/']) = cleanChars (c :: rest) := by
  have hsp : splitSlash (c :: rest ++ ['/']) = splitSlash (c :: rest) ++ [[]] := by
    have h1 := splitSlash_append (c :: rest) []
    simpa [splitSlash] using h1
  have hcs : ∀ r, cleanSegs r (splitSlash (c :: rest) ++ [[]])
      = cleanSegs r (splitSlash (c :: rest)) := by
    intro r
    unfold cleanSegs
    rw [cleanLoop_append]
    simp [cleanLoop, cleanStep_nil_seg]
  by_cases hc : c = '/'
  · subst hc
    rw [show ('/' :: rest ++ ['/'] : List Char) = '/' :: (rest ++ ['/']) from rfl,
      cleanChars_rooted_eq, cleanChars_rooted_eq,
      show ('/' :: (rest ++ ['/']) : List Char) = '/' :: rest ++ ['/'] from rfl, hsp, hcs]
  · rw [show (c :: rest ++ ['/'] : List Char) = c :: (rest ++ ['/']) from rfl,
      cleanChars_rel_eq c (rest ++ ['/']) hc, cleanChars_rel_eq c rest hc,
      show (c :: (rest ++ ['/']) : List Char) = c :: rest ++ ['/'] from rfl, hsp, hcs]

theorem cleanChars_rel_fixed (segs : List (List Char)) (hne : segs ≠ [])
    (h : ∀ s ∈ segs, PushSeg s ∧ '/' ∉ s) :
    cleanChars (joinSlash segs) = joinSlash segs := by
  cases segs with
  | nil => exact absurd rfl hne
  | cons s rest =>
    have hrt : splitSlash (joinSlash (s :: rest)) = s :: rest :=
      splitSlash_joinSlash _ (by simp) (fun u hu => (h u hu).2)
    have hs0 : s ≠ [] := (h s (by simp)).1.1
    obtain ⟨c, s', rfl⟩ : ∃ c s', s = c :: s' := by
      cases s with
      | nil => exact absurd rfl hs0
      | cons c s' => exact ⟨c, s', rfl⟩
    have hc : c ≠ '/' := fun hh => (h (c :: s') (by simp)).2 (by rw [hh]; simp)
    obtain ⟨X, hXeq⟩ : ∃ X, joinSlash ((c :: s') :: rest) = c :: X := by
      cases rest with
      | nil => exact ⟨s', rfl⟩
      | cons t ts =>
        refine ⟨s' ++ '/' :: joinSlash (t :: ts), ?_⟩
        rw [joinSlash_cons_cons]
        rfl
    rw [hXeq, cleanChars_rel_eq c X hc, ← hXeq, hrt,
      cleanSegs_push false _ (fun u hu => (h u hu).1)]
    simp

theorem cleanLoop_abs_concat (csegs : List (List Char)) (X : List Char)
    (h : ∀ s ∈ csegs, PushSeg s ∧ '/' ∉ s) :
    cleanLoop true [] (splitSlash ('/' :: (joinSlash csegs ++ '/' :: X)))
      = cleanLoop true csegs.reverse (splitSlash X) := by
  have h1 : splitSlash ('/' :: (joinSlash csegs ++ '/' :: X))
      = [] :: (splitSlash (joinSlash csegs) ++ splitSlash X) := by
    simp [splitSlash, splitSlash_append]
  cases csegs with
  | nil =>
    rw [h1]
    simp [splitSlash, cleanLoop_cons, cleanStep_nil_seg, joinSlash]
  | cons s rest =>
    rw [h1, splitSlash_joinSlash _ (by simp) (fun u hu => (h u hu).2),
      cleanLoop_cons, cleanStep_nil_seg, cleanLoop_append,
      cleanLoop_push true _ [] (fun u hu => (h u hu).1)]
    simp

theorem cleanSegs_abs_concat (csegs : List (List Char)) (X : List Char)
    (h : ∀ s ∈ csegs, PushSeg s ∧ '/' ∉ s) :
    cleanSegs true (splitSlash ('/' :: (joinSlash csegs ++ '/' :: X)))
      = (cleanLoop true csegs.reverse (splitSlash X)).reverse := by
  unfold cleanSegs
  rw [cleanLoop_abs_concat csegs X h]

theorem mem_cleanChars (cs : List Char) :
    ∀ c ∈ cleanChars cs, c = '/' ∨ c = '.' ∨ c ∈ cs := by
  intro c hc
  have segsMem : ∀ r, ∀ s ∈ cleanSegs r (splitSlash cs), ∀ x ∈ s, x ∈ cs := by
    intro r s hs x hx
    have : s ∈ cleanLoop r [] (splitSlash cs) := by simpa [cleanSegs] using hs
    rcases mem_cleanLoop _ [] r s this with h | h
    · simp at h
    · exact mem_of_mem_splitSlash cs s h x hx
  cases cs with
  | nil =>
    simp [cleanChars] at hc
    right; left; exact hc
  | cons c0 rest =>
    by_cases hc0 : c0 = '/'
    · subst hc0
      rw [cleanChars_rooted_eq] at hc
      rcases List.mem_cons.mp hc with h | h
      · left; exact h
      · rcases mem_joinSlash _ c h with h1 | ⟨s, hs, hcs⟩
        · left; exact h1
        · right; right; exact segsMem true s hs c hcs
    · rw [cleanChars_rel_eq c0 rest hc0] at hc
      by_cases hseg : cleanSegs false (splitSlash (c0 :: rest)) = []
      · rw [if_pos hseg] at hc
        simp at hc
        right; left; exact hc
      · rw [if_neg hseg] at hc
        rcases mem_joinSlash _ c hc with h1 | ⟨s, hs, hcs⟩
        · left; exact h1
        · right; right; exact segsMem false s hs c hcs

/-! ### Lemmas about `sprintfGo` and `trimPrefixC` -/

theorem sprintfGo_id (cs : List Char) (h : '%' ∉ cs) : sprintfGo none cs = cs := by
  induction cs with
  | nil => rfl
  | cons c rest ih =>
    have hc : c ≠ '%' := fun hh => h (by simp [hh])
    have hr : '%' ∉ rest := fun hh => h (by simp [hh])
    simp [sprintfGo, hc, ih hr]

theorem sprintfGo_slash_head (rest : List Char) :
    sprintfGo none ('/' :: rest) = '/' :: sprintfGo none rest := by
  simp [sprintfGo]

theorem trimPrefixC_append (p r : List Char) : trimPrefixC (p ++ r) p = some r := by
  induction p with
  | nil => simp [trimPrefixC]
  | cons c ps ih => simp [trimPrefixC, ih]

theorem trimPrefixC_suffix (p : List Char) :
    ∀ s r, trimPrefixC s p = some r → ∀ c ∈ r, c ∈ s := by
  induction p with
  | nil =>
    intro s r h c hc
    simp [trimPrefixC] at h
    rw [h]
    exact hc
  | cons q ps ih =>
    intro s r h c hc
    cases s with
    | nil => simp [trimPrefixC] at h
    | cons x s' =>
      by_cases hx : x = q
      · rw [show trimPrefixC (x :: s') (q :: ps) = trimPrefixC s' ps by
          simp [trimPrefixC, hx]] at h
        exact List.mem_cons_of_mem x (ih s' r h c hc)
      · rw [show trimPrefixC (x :: s') (q :: ps) = none by
          simp [trimPrefixC, hx]] at h
        exact absurd h (by simp)

/-! ### String-level computation lemmas for built paths -/

theorem data_mk (l : List Char) : (⟨l⟩ : String).data = l := rfl

theorem mkAbsPath_data (segs : List (List Char)) :
    (mkAbsPath segs).data = '/' :: joinSlash segs := rfl

theorem string_eq_of_data {a b : String} (h : a.data = b.data) : a = b := by
  cases a; cases b; exact congrArg String.mk h

theorem mkAbsPath_ne_empty (segs : List (List Char)) : mkAbsPath segs ≠ "" := by
  intro h
  have h2 : (mkAbsPath segs).data = ("" : String).data := congrArg String.data h
  rw [mkAbsPath_data, show ("" : String).data = [] from rfl] at h2
  simp at h2

theorem isAbsPath_of_data_cons (s : String) (c : Char) (l : List Char)
    (h : s.data = c :: l) (hc : c ≠ '/') : isAbsPath s = false := by
  unfold isAbsPath
  rw [h]
  simp [hc]

theorem isAbsPath_mkAbsPath (segs : List (List Char)) :
    isAbsPath (mkAbsPath segs) = true := by
  unfold isAbsPath
  rw [mkAbsPath_data]
  simp

theorem joinSlash_cons_shape (c : Char) (s' : List Char) (rest : List (List Char)) :
    ∃ X, joinSlash ((c :: s') :: rest) = c :: X := by
  cases rest with
  | nil => exact ⟨s', rfl⟩
  | cons t ts =>
    refine ⟨s' ++ '/' :: joinSlash (t :: ts), ?_⟩
    rw [joinSlash_cons_cons]
    rfl

theorem isAbsPath_joinSlash (dsegs : List (List Char)) (hdne : dsegs ≠ [])
    (hd : ∀ s ∈ dsegs, PushSeg s ∧ '/' ∉ s) :
    isAbsPath ⟨joinSlash dsegs⟩ = false := by
  cases dsegs with
  | nil => exact absurd rfl hdne
  | cons s rest =>
    have hs0 : s ≠ [] := (hd s (by simp)).1.1
    obtain ⟨c, s', rfl⟩ : ∃ c s', s = c :: s' := by
      cases s with
      | nil => exact absurd rfl hs0
      | cons c s' => exact ⟨c, s', rfl⟩
    have hc : c ≠ '/' := fun hh => (hd (c :: s') (by simp)).2 (by rw [hh]; simp)
    obtain ⟨X, hXeq⟩ := joinSlash_cons_shape c s' rest
    exact isAbsPath_of_data_cons _ c X (by rw [data_mk, hXeq]) hc

theorem filepathAbs_relCore (csegs : List (List Char)) (p : String)
    (hc : ∀ s ∈ csegs, PushSeg s ∧ '/' ∉ s) (hp : isAbsPath p = false) :
    filepathAbs (mkAbsPath csegs) p
      = ⟨'/' :: joinSlash ((cleanLoop true csegs.reverse (splitSlash p.data)).reverse)⟩ := by
  unfold filepathAbs
  rw [if_neg (by simp [hp]), if_neg (mkAbsPath_ne_empty csegs)]
  unfold filepathClean
  have hdata : (mkAbsPath csegs ++ "/" ++ p).data
      = '/' :: (joinSlash csegs ++ '/' :: p.data) := by
    rw [String.data_append, String.data_append, mkAbsPath_data,
      show ("/" : String).data = ['/'] from rfl]
    simp
  rw [hdata, cleanChars_rooted_eq, cleanSegs_abs_concat csegs p.data hc]

theorem filepathAbs_mkAbsPath (cwd : String) (asegs : List (List Char))
    (h : ∀ s ∈ asegs, PushSeg s ∧ '/' ∉ s) :
    filepathAbs cwd (mkAbsPath asegs) = mkAbsPath asegs := by
  unfold filepathAbs
  rw [if_pos (by simp [isAbsPath_mkAbsPath])]
  unfold filepathClean
  rw [mkAbsPath_data, cleanChars_rooted_fixed asegs h]
  rfl

theorem filepathAbs_joinSlash (csegs dsegs : List (List Char))
    (hc : ∀ s ∈ csegs, PushSeg s ∧ '/' ∉ s) (hd : ∀ s ∈ dsegs, PushSeg s ∧ '/' ∉ s)
    (hdne : dsegs ≠ []) :
    filepathAbs (mkAbsPath csegs) ⟨joinSlash dsegs⟩ = mkAbsPath (csegs ++ dsegs) := by
  rw [filepathAbs_relCore csegs _ hc (isAbsPath_joinSlash dsegs hdne hd), data_mk,
    splitSlash_joinSlash dsegs hdne (fun u hu => (hd u hu).2),
    cleanLoop_push true dsegs csegs.reverse (fun u hu => (hd u hu).1)]
  unfold mkAbsPath
  congr 2
  simp

theorem filepathAbs_dotPath (csegs : List (List Char))
    (hc : ∀ s ∈ csegs, PushSeg s ∧ '/' ∉ s) :
    filepathAbs (mkAbsPath csegs) "." = mkAbsPath csegs := by
  rw [filepathAbs_relCore csegs "." hc (by decide),
    show ("." : String).data = ['.'] from rfl,
    show splitSlash ['.'] = [['.']] from rfl,
    show cleanLoop true csegs.reverse [['.']] = csegs.reverse from by
      rw [cleanLoop_cons, cleanStep_dot]; rfl]
  unfold mkAbsPath
  congr 2
  simp

theorem filepathAbs_emptyPath (csegs : List (List Char))
    (hc : ∀ s ∈ csegs, PushSeg s ∧ '/' ∉ s) :
    filepathAbs (mkAbsPath csegs) "" = mkAbsPath csegs := by
  rw [filepathAbs_relCore csegs "" hc (by decide),
    show ("" : String).data = [] from rfl,
    show splitSlash [] = [[]] from rfl,
    show cleanLoop true csegs.reverse [[]] = csegs.reverse from by
      rw [cleanLoop_cons, cleanStep_nil_seg]; rfl]
  unfold mkAbsPath
  congr 2
  simp

theorem trim_self (s : String) : trimPrefixStr s s = ⟨[]⟩ := by
  unfold trimPrefixStr
  have h := trimPrefixC_append s.data []
  rw [List.append_nil] at h
  rw [h]

theorem trim_mkAbs_append (csegs dsegs : List (List Char)) (hcne : csegs ≠ [])
    (hdne : dsegs ≠ []) :
    trimPrefixStr (mkAbsPath (csegs ++ dsegs)) (mkAbsPath csegs) = mkAbsPath dsegs := by
  unfold trimPrefixStr
  have hdata : (mkAbsPath (csegs ++ dsegs)).data
      = ('/' :: joinSlash csegs) ++ ('/' :: joinSlash dsegs) := by
    rw [mkAbsPath_data, joinSlash_append csegs dsegs hcne hdne]
    rfl
  rw [hdata, mkAbsPath_data, trimPrefixC_append]
  rfl

theorem trim_mkAbs_nilRoot (dsegs : List (List Char)) :
    trimPrefixStr (mkAbsPath dsegs) (mkAbsPath []) = ⟨joinSlash dsegs⟩ := by
  unfold trimPrefixStr
  rw [show (mkAbsPath dsegs).data = ['/'] ++ joinSlash dsegs from rfl,
    show (mkAbsPath []).data = ['/'] from rfl, trimPrefixC_append]

theorem pct_not_mem_joinSlash (segs : List (List Char))
    (h : ∀ s ∈ segs, GoodSeg s) : '%' ∉ joinSlash segs := by
  intro hmem
  rcases mem_joinSlash segs '%' hmem with h1 | ⟨s, hs, hmem'⟩
  · exact absurd h1 (by decide)
  · exact (h s hs).2.2 hmem'

theorem sprintf_mkAbs (segs : List (List Char)) (h : ∀ s ∈ segs, GoodSeg s) :
    sprintfNoArgs (mkAbsPath segs) = mkAbsPath segs := by
  apply string_eq_of_data
  show sprintfGo none (mkAbsPath segs).data = (mkAbsPath segs).data
  rw [mkAbsPath_data]
  apply sprintfGo_id
  intro hmem
  rcases List.mem_cons.mp hmem with h1 | h1
  · exact absurd h1 (by decide)
  · exact pct_not_mem_joinSlash segs h h1

theorem cleanChars_double_slash (X : List (List Char))
    (hX : ∀ s ∈ X, PushSeg s ∧ '/' ∉ s) (hne : X ≠ []) :
    cleanChars ('/' :: '/' :: joinSlash X) = '/' :: joinSlash X := by
  show cleanChars ('/' :: (joinSlash ([] : List (List Char)) ++ '/' :: joinSlash X)) = _
  rw [cleanChars_rooted_eq, cleanSegs_abs_concat [] (joinSlash X) (by simp),
    splitSlash_joinSlash X hne (fun u hu => (hX u hu).2),
    show (([] : List (List Char)).reverse) = [] from rfl,
    cleanLoop_push true X [] (fun u hu => (hX u hu).1)]
  simp

theorem filepathClean_mkAbsPath (segs : List (List Char))
    (h : ∀ s ∈ segs, PushSeg s ∧ '/' ∉ s) :
    filepathClean (mkAbsPath segs) = mkAbsPath segs := by
  apply string_eq_of_data
  show cleanChars ('/' :: joinSlash segs) = '/' :: joinSlash segs
  exact cleanChars_rooted_fixed segs h

/-- The value `abs(dir, Root)` takes inside the template when the
serving root is the working directory `/c1/c2/...`, the request
directory is the cleaned relative path `d1/d2/...` (or `.` for the
root itself), and the package-level `Root` is `""`: the rooted display
path `/d1/d2/...`. -/
theorem abs_built (csegs dsegs : List (List Char))
    (hc : ∀ s ∈ csegs, GoodSeg s) (hd : ∀ s ∈ dsegs, GoodSeg s) :
    abs (mkAbsPath csegs) (mkRelPath dsegs) "" = mkAbsPath dsegs := by
  have hc' : ∀ s ∈ csegs, PushSeg s ∧ '/' ∉ s :=
    fun u hu => ⟨(hc u hu).1, (hc u hu).2.1⟩
  have hd' : ∀ s ∈ dsegs, PushSeg s ∧ '/' ∉ s :=
    fun u hu => ⟨(hd u hu).1, (hd u hu).2.1⟩
  show sprintfNoArgs (filepathClean ("/" ++ trimPrefixStr
    (filepathAbs (mkAbsPath csegs) (mkRelPath dsegs))
    (filepathAbs (mkAbsPath csegs) ""))) = mkAbsPath dsegs
  rw [filepathAbs_emptyPath csegs hc']
  cases dsegs with
  | nil =>
    rw [show mkRelPath [] = "." from rfl, filepathAbs_dotPath csegs hc', trim_self]
    decide
  | cons s rest =>
    rw [show mkRelPath (s :: rest) = ⟨joinSlash (s :: rest)⟩ from by
        unfold mkRelPath; rw [if_neg (by simp)],
      filepathAbs_joinSlash csegs (s :: rest) hc' hd' (by simp)]
    cases csegs with
    | nil =>
      rw [show (([] : List (List Char)) ++ (s :: rest)) = s :: rest from rfl,
        trim_mkAbs_nilRoot (s :: rest)]
      have h1 : ("/" ++ (⟨joinSlash (s :: rest)⟩ : String)) = mkAbsPath (s :: rest) := by
        apply string_eq_of_data
        rw [String.data_append]
        rfl
      rw [h1, filepathClean_mkAbsPath (s :: rest) hd']
      exact sprintf_mkAbs (s :: rest) hd
    | cons c0 cs0 =>
      rw [trim_mkAbs_append (c0 :: cs0) (s :: rest) (by simp) (by simp)]
      have h1 : filepathClean ("/" ++ mkAbsPath (s :: rest)) = mkAbsPath (s :: rest) := by
        apply string_eq_of_data
        show cleanChars (("/" ++ mkAbsPath (s :: rest)).data) = '/' :: joinSlash (s :: rest)
        rw [String.data_append, show ("/" : String).data = ['/'] from rfl, mkAbsPath_data,
          show ((['/'] : List Char) ++ '/' :: joinSlash (s :: rest))
            = '/' :: '/' :: joinSlash (s :: rest) from rfl]
        exact cleanChars_double_slash (s :: rest) hd' (by simp)
      rw [h1]
      exact sprintf_mkAbs (s :: rest) hd

/-- The hyperlink the template emits for child `n` of the request
directory `d1/.../dk` is `/d1/.../dk/n`. -/
theorem linkTarget_built (csegs dsegs : List (List Char)) (n : List Char)
    (hc : ∀ s ∈ csegs, GoodSeg s) (hd : ∀ s ∈ dsegs, GoodSeg s) (hn : GoodSeg n) :
    linkTarget (mkAbsPath csegs) (mkRelPath dsegs) "" ⟨n⟩ = mkAbsPath (dsegs ++ [n]) := by
  have hd' : ∀ s ∈ dsegs, PushSeg s ∧ '/' ∉ s :=
    fun u hu => ⟨(hd u hu).1, (hd u hu).2.1⟩
  unfold linkTarget
  rw [abs_built csegs dsegs hc hd]
  apply string_eq_of_data
  show cleanChars ((mkAbsPath dsegs ++ "/" ++ (⟨n⟩ : String)).data)
    = (mkAbsPath (dsegs ++ [n])).data
  have hdata : (mkAbsPath dsegs ++ "/" ++ (⟨n⟩ : String)).data
      = '/' :: (joinSlash dsegs ++ '/' :: n) := by
    rw [String.data_append, String.data_append, mkAbsPath_data,
      show ("/" : String).data = ['/'] from rfl, data_mk]
    simp
  rw [hdata, cleanChars_rooted_eq, cleanSegs_abs_concat dsegs n hd',
    splitSlash_no_slash n hn.2.1,
    show cleanLoop true dsegs.reverse [n] = n :: dsegs.reverse from by
      rw [cleanLoop_cons, cleanStep_push true dsegs.reverse n hn.1]; rfl,
    mkAbsPath_data]
  congr 1
  simp

/-- Resolving the absolute-from-root URL `/e1/.../ek` stats the
filesystem path `cwd/e1/.../ek`. -/
theorem resolveFS_mkAbs (csegs esegs : List (List Char))
    (hc : ∀ s ∈ csegs, GoodSeg s) (he : ∀ s ∈ esegs, GoodSeg s) (hene : esegs ≠ []) :
    resolveFS (mkAbsPath csegs) (mkAbsPath esegs) = mkAbsPath (csegs ++ esegs) := by
  have hc' : ∀ s ∈ csegs, PushSeg s ∧ '/' ∉ s :=
    fun u hu => ⟨(hc u hu).1, (hc u hu).2.1⟩
  have he' : ∀ s ∈ esegs, PushSeg s ∧ '/' ∉ s :=
    fun u hu => ⟨(he u hu).1, (he u hu).2.1⟩
  unfold resolveFS
  have htrim : trimPrefixStr (mkAbsPath esegs) "/" = ⟨joinSlash esegs⟩ := by
    unfold trimPrefixStr
    rw [show (mkAbsPath esegs).data = ['/'] ++ joinSlash esegs from rfl,
      show ("/" : String).data = ['/'] from rfl, trimPrefixC_append]
  rw [htrim,
    show filepathClean ⟨joinSlash esegs⟩ = ⟨joinSlash esegs⟩ from by
      apply string_eq_of_data
      show cleanChars (joinSlash esegs) = joinSlash esegs
      exact cleanChars_rel_fixed esegs hene he']
  exact filepathAbs_joinSlash csegs esegs hc' he' hene

/-- The filesystem path of child `n` of the request directory: the
handler's path for the child is `d ++ "/" ++ n`, which the operating
system resolves to `cwd/d1/.../dk/n`. -/
theorem childPath_built (csegs dsegs : List (List Char)) (n : List Char)
    (hc : ∀ s ∈ csegs, GoodSeg s) (hd : ∀ s ∈ dsegs, GoodSeg s) (hn : GoodSeg n) :
    filepathAbs (mkAbsPath csegs) (mkRelPath dsegs ++ "/" ++ ⟨n⟩)
      = mkAbsPath (csegs ++ (dsegs ++ [n])) := by
  have hc' : ∀ s ∈ csegs, PushSeg s ∧ '/' ∉ s :=
    fun u hu => ⟨(hc u hu).1, (hc u hu).2.1⟩
  have hd' : ∀ s ∈ dsegs, PushSeg s ∧ '/' ∉ s :=
    fun u hu => ⟨(hd u hu).1, (hd u hu).2.1⟩
  have hall : ∀ s ∈ dsegs ++ [n], PushSeg s ∧ '/' ∉ s := by
    intro u hu
    rcases List.mem_append.mp hu with h1 | h1
    · exact hd' u h1
    · simp at h1
      subst h1
      exact ⟨hn.1, hn.2.1⟩
  cases dsegs with
  | nil =>
    have hpd : (("." : String) ++ "/" ++ (⟨n⟩ : String)).data = '.' :: '/' :: n := by
      rw [String.data_append, String.data_append,
        show ("." : String).data = ['.'] from rfl,
        show ("/" : String).data = ['/'] from rfl, data_mk]
      rfl
    have hp : isAbsPath (("." : String) ++ "/" ++ (⟨n⟩ : String)) = false :=
      isAbsPath_of_data_cons _ '.' ('/' :: n) hpd (by decide)
    rw [show mkRelPath [] = "." from rfl, filepathAbs_relCore csegs _ hc' hp, hpd,
      show splitSlash ('.' :: '/' :: n) = [['.']] ++ splitSlash n from by
        rw [show ('.' :: '/' :: n : List Char) = ['.'] ++ '/' :: n from rfl,
          splitSlash_append, show splitSlash ['.'] = [['.']] from by decide],
      splitSlash_no_slash n hn.2.1,
      show ((([['.']] : List (List Char))) ++ [n]) = [['.'], n] from rfl,
      show cleanLoop true csegs.reverse [['.'], n] = n :: csegs.reverse from by
        rw [cleanLoop_cons, cleanStep_dot, cleanLoop_cons,
          cleanStep_push true csegs.reverse n hn.1]
        rfl]
    unfold mkAbsPath
    congr 2
    simp
  | cons s rest =>
    have hstr : (mkRelPath (s :: rest) ++ "/" ++ (⟨n⟩ : String))
        = ⟨joinSlash ((s :: rest) ++ [n])⟩ := by
      apply string_eq_of_data
      rw [show mkRelPath (s :: rest) = ⟨joinSlash (s :: rest)⟩ from by
          unfold mkRelPath; rw [if_neg (by simp)],
        String.data_append, String.data_append, data_mk, data_mk,
        show ("/" : String).data = ['/'] from rfl,
        joinSlash_append (s :: rest) [n] (by simp) (by simp)]
      simp [joinSlash]
    rw [hstr]
    have := filepathAbs_joinSlash csegs ((s :: rest) ++ [n]) hc' hall (by simp)
    rw [this]

/-! ### String append helpers -/

theorem str_empty_append (s : String) : "" ++ s = s := by
  apply string_eq_of_data
  rw [String.data_append, show ("" : String).data = [] from rfl]
  simp

theorem str_append_assoc (a b c : String) : a ++ b ++ c = a ++ (b ++ c) := by
  apply string_eq_of_data
  simp [String.data_append]

theorem data_ne_nil_of_ne_empty (s : String) (h : s ≠ "") : s.data ≠ [] := by
  intro hh
  exact h (string_eq_of_data (by rw [hh]))

/-! ### Trailing-slash invariance -/

theorem cleanChars_trailing_ne (B : List Char) (h : B ≠ []) :
    cleanChars (B ++ ['/']) = cleanChars B := by
  cases B with
  | nil => exact absurd rfl h
  | cons b0 brest => exact cleanChars_trailing b0 brest

theorem filepathClean_trailing (s : String) (h : s ≠ "") :
    filepathClean (s ++ "/") = filepathClean s := by
  apply string_eq_of_data
  show cleanChars ((s ++ "/").data) = cleanChars s.data
  rw [String.data_append, show ("/" : String).data = ['/'] from rfl]
  exact cleanChars_trailing_ne s.data (data_ne_nil_of_ne_empty s h)

theorem isAbsPath_trailing (s : String) (h : s ≠ "") :
    isAbsPath (s ++ "/") = isAbsPath s := by
  obtain ⟨c, l, hcl⟩ : ∃ c l, s.data = c :: l := by
    cases hs : s.data with
    | nil => exact absurd hs (data_ne_nil_of_ne_empty s h)
    | cons c l => exact ⟨c, l, rfl⟩
  unfold isAbsPath
  rw [String.data_append, hcl, show ("/" : String).data = ['/'] from rfl]
  rfl

theorem filepathAbs_trailing (cwd dir : String) (h : dir ≠ "") :
    filepathAbs cwd (dir ++ "/") = filepathAbs cwd dir := by
  unfold filepathAbs
  rw [isAbsPath_trailing dir h]
  by_cases habs : isAbsPath dir = true
  · rw [if_pos habs, if_pos habs, filepathClean_trailing dir h]
  · rw [if_neg habs, if_neg habs]
    by_cases hcwd : cwd = ""
    · rw [if_pos hcwd, if_pos hcwd, filepathClean_trailing dir h]
    · rw [if_neg hcwd, if_neg hcwd, ← str_append_assoc (cwd ++ "/") dir "/",
        filepathClean_trailing (cwd ++ "/" ++ dir) (by
          intro hh
          have := congrArg String.data hh
          rw [String.data_append, String.data_append,
            show ("/" : String).data = ['/'] from rfl,
            show ("" : String).data = [] from rfl] at this
          simp at this)]

theorem abs_trailing (cwd dir root : String) (h : dir ≠ "") :
    abs cwd (dir ++ "/") root = abs cwd dir root := by
  show sprintfNoArgs (filepathClean ("/" ++ trimPrefixStr
      (filepathAbs cwd (dir ++ "/")) (filepathAbs cwd root)))
    = sprintfNoArgs (filepathClean ("/" ++ trimPrefixStr
      (filepathAbs cwd dir) (filepathAbs cwd root)))
  rw [filepathAbs_trailing cwd dir h]

/-! ### The shape of `abs` results -/

theorem filepathClean_slash_append (p : String) :
    (filepathClean ("/" ++ p)).data = cleanChars ('/' :: p.data) := by
  unfold filepathClean
  rw [data_mk, String.data_append, show ("/" : String).data = ['/'] from rfl]
  rfl

theorem abs_data_eq (cwd dir root : String) :
    (abs cwd dir root).data
      = sprintfGo none (cleanChars ('/' ::
          (trimPrefixStr (filepathAbs cwd dir) (filepathAbs cwd root)).data)) := by
  show (sprintfNoArgs (filepathClean ("/" ++ trimPrefixStr
      (filepathAbs cwd dir) (filepathAbs cwd root)))).data = _
  unfold sprintfNoArgs
  rw [data_mk, filepathClean_slash_append]

theorem abs_head (cwd dir root : String) :
    (abs cwd dir root).data.head? = some '/' := by
  rw [abs_data_eq, cleanChars_rooted_eq, sprintfGo_slash_head]
  rfl

/-! ### Propagation of percent-freeness -/

theorem pct_not_mem_cleanChars (cs : List Char) (h : '%' ∉ cs) :
    '%' ∉ cleanChars cs := by
  intro hmem
  rcases mem_cleanChars cs '%' hmem with h1 | h1 | h1
  · exact absurd h1 (by decide)
  · exact absurd h1 (by decide)
  · exact h h1

theorem pct_not_mem_filepathClean (s : String) (h : '%' ∉ s.data) :
    '%' ∉ (filepathClean s).data := by
  unfold filepathClean
  rw [data_mk]
  exact pct_not_mem_cleanChars s.data h

theorem pct_not_mem_filepathAbs (cwd p : String) (hcwd : '%' ∉ cwd.data)
    (hp : '%' ∉ p.data) : '%' ∉ (filepathAbs cwd p).data := by
  unfold filepathAbs
  split
  · exact pct_not_mem_filepathClean p hp
  · split
    · exact pct_not_mem_filepathClean p hp
    · apply pct_not_mem_filepathClean
      rw [String.data_append, String.data_append,
        show ("/" : String).data = ['/'] from rfl]
      intro hmem
      rcases List.mem_append.mp hmem with h1 | h1
      · rcases List.mem_append.mp h1 with h2 | h2
        · exact hcwd h2
        · simp at h2
      · exact hp h1

theorem pct_not_mem_trim (s pre : String) (h : '%' ∉ s.data) :
    '%' ∉ (trimPrefixStr s pre).data := by
  unfold trimPrefixStr
  cases htr : trimPrefixC s.data pre.data with
  | none => exact h
  | some rest =>
    rw [data_mk]
    intro hmem
    exact h (trimPrefixC_suffix pre.data s.data rest htr '%' hmem)

theorem sprintf_id_str (s : String) (h : '%' ∉ s.data) : sprintfNoArgs s = s := by
  apply string_eq_of_data
  show sprintfGo none s.data = s.data
  exact sprintfGo_id s.data h

/-! ### Listing construction lemmas -/

theorem filter_eq (l : List FileInfo) (f : FileInfo → Bool) :
    filter l f = l.filter f := by
  induction l with
  | nil => rfl
  | cons v rest ih =>
    by_cases h : f v <;> simp [filter, h, ih, List.filter_cons]

theorem splitFiles_eq (l : List FileInfo) (f : FileInfo → Bool) :
    splitFiles l f = (l.filter f, l.filter (fun x => !f x)) := by
  induction l with
  | nil => rfl
  | cons v rest ih =>
    by_cases h : f v <;> simp [splitFiles, ih, List.filter_cons, h]

theorem mkListing_eq (root path : String) (contents : List FileInfo) :
    mkListing root path contents =
      { Root := root, Dir := path,
        Directories := contents.filter (fun e => !hasPrefixStr e.name "." && e.isDir),
        Files := contents.filter (fun e => !hasPrefixStr e.name "." && !e.isDir) } := by
  unfold mkListing filterFiles
  simp only [filter_eq, splitFiles_eq, List.filter_filter]
  simp [Bool.and_comm]

/-! ### Claim theorems -/

/-- C1: the claim says a stat error other than "does not exist" yields
a 500 response. The code (main.go lines 128-138) only returns early for
`os.IsNotExist`; on any other stat error it falls through and calls
`info.IsDir()` on the nil `FileInfo`, a panic — the handler produces no
response at all, modelled as `none`. This theorem evaluates the handler
at the failing input. -/
theorem c1_stat_error_panics (root p : String) (rd : ReadDirOutcome)
    (ex : ExecOutcome) (w : RW) :
    handleServe root p .errOther rd ex w = none := rfl

/-- C2: requesting a directory returns a listing whose `Directories`
and `Files` are exactly the non-hidden children (names not starting
with `.`) with the directory bit set and cleared respectively, each in
the enumeration order of the directory read (`List.filter` keeps order
and multiplicity). -/
theorem c2_directory_listing_exact (root url r : String)
    (contents : List FileInfo) (w : RW) :
    handleServe root url (.ok true) (.ok contents) (.ok r) w
      = some (rwWrite w r,
          some { Root := root, Dir := filepathClean url,
                 Directories :=
                   contents.filter (fun e => !hasPrefixStr e.name "." && e.isDir),
                 Files :=
                   contents.filter (fun e => !hasPrefixStr e.name "." && !e.isDir) },
          false,
          [.statOp (filepathClean url), .readDirOp (filepathClean url),
           .readDirOp (filepathClean url)]) := by
  simp [handleServe, handleDirectory, mkListing_eq]

/-- C3 (counterexample): the claim says the serving root is fixed at
startup from the working directory. With working directory `/srv`, the
package-level `Root` after `main`'s startup is `""`, not `/srv` —
`Root, err := os.Getwd()` declared a shadowing local. -/
theorem c3_global_root_cex :
    ¬ (lookupVar (mainStartup "/srv").globals "Root" = some "/srv") := by decide

/-- C3 (amended): the package-level `Root` never changes — it holds
`""` before and after startup — and is read-only thereafter; the value
`main` itself resolves for `Root` (used for `http.Dir`) is the working
directory, via the shadowing local. -/
theorem c3_root_immutable (cwd : String) :
    lookupVar (mainStartup cwd).globals "Root" = lookupVar initialEnv.globals "Root"
    ∧ lookupVar (mainStartup cwd).globals "Root" = some ""
    ∧ resolveVar (mainStartup cwd) "Root" = some cwd := by
  exact ⟨rfl, rfl, rfl⟩

/-- C4: the package-level `Root` remains `""` after startup, every
`Listing` built with it has `Root = ""`, and `filepath.Abs` resolves
the empty root to the working directory. -/
theorem c4_root_shadowing (csegs : List (List Char))
    (h : ∀ s ∈ csegs, GoodSeg s) :
    lookupVar (mainStartup (mkAbsPath csegs)).globals "Root" = some ""
    ∧ (∀ path contents,
        (mkListing ((lookupVar (mainStartup (mkAbsPath csegs)).globals "Root").getD "unset")
          path contents).Root = "")
    ∧ filepathAbs (mkAbsPath csegs) "" = mkAbsPath csegs := by
  refine ⟨rfl, ?_, ?_⟩
  · intro path contents
    rw [mkListing_eq]
    rfl
  · exact filepathAbs_emptyPath csegs (fun u hu => ⟨(h u hu).1, (h u hu).2.1⟩)

/-- C4 witness at working directory `/u`. -/
theorem c4_root_shadowing_witness :
    (∀ s ∈ [['u']], GoodSeg s)
    ∧ (lookupVar (mainStartup (mkAbsPath [['u']])).globals "Root" = some ""
       ∧ (∀ path contents,
           (mkListing ((lookupVar (mainStartup (mkAbsPath [['u']])).globals "Root").getD "unset")
             path contents).Root = "")
       ∧ filepathAbs (mkAbsPath [['u']]) "" = mkAbsPath [['u']]) :=
  ⟨by decide, c4_root_shadowing [['u']] (by decide)⟩

/-- C5 (counterexample): for a directory literally named `a%d` under
the root, the generated link does not resolve back to the child: `abs`
passes the display path through `fmt.Sprintf`, turning `/a%d` into
`/a%!d(MISSING)`. -/
theorem c5_roundtrip_cex :
    resolveFS "/" (linkTarget "/" "a%d" "" "x")
      ≠ filepathAbs "/" ("a%d" ++ "/" ++ "x") := by decide

/-- C5 (amended): for every child whose directory path and name are
made of well-formed `%`-free segments, resolving the generated link
through the path resolver yields exactly the child's filesystem path. -/
theorem c5_roundtrip (csegs dsegs : List (List Char)) (n : List Char)
    (hc : ∀ s ∈ csegs, GoodSeg s) (hd : ∀ s ∈ dsegs, GoodSeg s) (hn : GoodSeg n) :
    resolveFS (mkAbsPath csegs) (linkTarget (mkAbsPath csegs) (mkRelPath dsegs) "" ⟨n⟩)
      = filepathAbs (mkAbsPath csegs) (mkRelPath dsegs ++ "/" ++ ⟨n⟩)
    ∧ resolveFS (mkAbsPath csegs) (linkTarget (mkAbsPath csegs) (mkRelPath dsegs) "" ⟨n⟩)
      = mkAbsPath (csegs ++ (dsegs ++ [n])) := by
  have hall : ∀ s ∈ dsegs ++ [n], GoodSeg s := by
    intro u hu
    rcases List.mem_append.mp hu with h1 | h1
    · exact hd u h1
    · simp at h1
      subst h1
      exact hn
  have h1 : resolveFS (mkAbsPath csegs)
      (linkTarget (mkAbsPath csegs) (mkRelPath dsegs) "" ⟨n⟩)
      = mkAbsPath (csegs ++ (dsegs ++ [n])) := by
    rw [linkTarget_built csegs dsegs n hc hd hn]
    exact resolveFS_mkAbs csegs (dsegs ++ [n]) hc hall (by simp)
  exact ⟨h1.trans (childPath_built csegs dsegs n hc hd hn).symm, h1⟩

/-- C5 witness: root `/u`, directory `d`, child `x`. -/
theorem c5_roundtrip_witness :
    (∀ s ∈ [['u']], GoodSeg s) ∧ (∀ s ∈ [['d']], GoodSeg s) ∧ GoodSeg ['x']
    ∧ (resolveFS (mkAbsPath [['u']])
        (linkTarget (mkAbsPath [['u']]) (mkRelPath [['d']]) "" ⟨['x']⟩)
        = filepathAbs (mkAbsPath [['u']]) (mkRelPath [['d']] ++ "/" ++ ⟨['x']⟩)
       ∧ resolveFS (mkAbsPath [['u']])
          (linkTarget (mkAbsPath [['u']]) (mkRelPath [['d']]) "" ⟨['x']⟩)
          = mkAbsPath ([['u']] ++ ([['d']] ++ [['x']]))) :=
  ⟨by decide, by decide, by decide,
    c5_roundtrip [['u']] [['d']] ['x'] (by decide) (by decide) (by decide)⟩

/-- C6: the hyperlink target is `clean(abs(dir, root) + "/" + name)`,
begins with `/`, is already in cleaned form, and is unchanged by a
trailing slash on `dir`. -/
theorem c6_link_normalized (cwd dir root name : String) (h : dir ≠ "") :
    linkTarget cwd dir root name = filepathClean (abs cwd dir root ++ "/" ++ name)
    ∧ (linkTarget cwd dir root name).data.head? = some '/'
    ∧ filepathClean (linkTarget cwd dir root name) = linkTarget cwd dir root name
    ∧ linkTarget cwd (dir ++ "/") root name = linkTarget cwd dir root name := by
  obtain ⟨X0, hX0⟩ : ∃ X0, (abs cwd dir root).data = '/' :: X0 := by
    have hh := abs_head cwd dir root
    cases habs : (abs cwd dir root).data with
    | nil => rw [habs] at hh; simp at hh
    | cons a as =>
      rw [habs] at hh
      simp at hh
      exact ⟨as, by rw [hh]⟩
  have hX : (abs cwd dir root ++ "/" ++ name).data = '/' :: (X0 ++ '/' :: name.data) := by
    rw [String.data_append, String.data_append, hX0,
      show ("/" : String).data = ['/'] from rfl]
    simp
  have hld : (linkTarget cwd dir root name).data = cleanChars ('/' :: (X0 ++ '/' :: name.data)) := by
    unfold linkTarget filepathClean
    rw [data_mk, hX]
  refine ⟨rfl, ?_, ?_, ?_⟩
  · rw [hld, cleanChars_rooted_eq]
    rfl
  · apply string_eq_of_data
    show cleanChars ((linkTarget cwd dir root name).data) = (linkTarget cwd dir root name).data
    rw [hld]
    exact cleanChars_rooted_idem _
  · unfold linkTarget
    rw [abs_trailing cwd dir root h]

/-- C6 witness at `cwd = "/h"`, `dir = "docs"`, `name = "x"`. -/
theorem c6_link_normalized_witness :
    ("docs" : String) ≠ ""
    ∧ (linkTarget "/h" "docs" "" "x" = filepathClean (abs "/h" "docs" "" ++ "/" ++ "x")
       ∧ (linkTarget "/h" "docs" "" "x").data.head? = some '/'
       ∧ filepathClean (linkTarget "/h" "docs" "" "x") = linkTarget "/h" "docs" "" "x"
       ∧ linkTarget "/h" ("docs" ++ "/") "" "x" = linkTarget "/h" "docs" "" "x") :=
  ⟨by decide, c6_link_normalized "/h" "docs" "" "x" (by decide)⟩

/-- C7 (counterexample): `abs` is not "strip the root prefix and
re-clean" on all inputs — at `dir = "/a%d"`, `root = "/"` the
`fmt.Sprintf` pass mangles the result to `/a%!d(MISSING)` while the
spec's relativize yields `/a%d`. -/
theorem c7_sprintf_mangles_cex :
    abs "/" "/a%d" "/" ≠ relativizeSpec "/" "/a%d" "/" := by decide

/-- C7 (amended): for `%`-free inputs `abs` computes exactly the
spec's relativize (strip the root prefix, prepend `/`, re-clean), and
its result begins with `/` and is already in cleaned form. -/
theorem c7_relativize_total (cwd dir root : String) (h1 : '%' ∉ cwd.data)
    (h2 : '%' ∉ dir.data) (_h3 : '%' ∉ root.data) :
    abs cwd dir root = relativizeSpec cwd dir root
    ∧ (abs cwd dir root).data.head? = some '/'
    ∧ filepathClean (abs cwd dir root) = abs cwd dir root := by
  have hd : '%' ∉ (filepathAbs cwd dir).data := pct_not_mem_filepathAbs cwd dir h1 h2
  have ht : '%' ∉ (trimPrefixStr (filepathAbs cwd dir) (filepathAbs cwd root)).data :=
    pct_not_mem_trim _ _ hd
  have hsl : '%' ∉ ("/" ++ trimPrefixStr (filepathAbs cwd dir) (filepathAbs cwd root)).data := by
    rw [String.data_append, show ("/" : String).data = ['/'] from rfl]
    intro hmem
    rcases List.mem_append.mp hmem with ha | hb
    · simp at ha
    · exact ht hb
  have hcl : '%' ∉ (filepathClean ("/" ++ trimPrefixStr (filepathAbs cwd dir)
      (filepathAbs cwd root))).data := pct_not_mem_filepathClean _ hsl
  have heq : abs cwd dir root = relativizeSpec cwd dir root := by
    show sprintfNoArgs (filepathClean ("/" ++ trimPrefixStr (filepathAbs cwd dir)
      (filepathAbs cwd root))) = relativizeSpec cwd dir root
    rw [sprintf_id_str _ hcl]
    rfl
  refine ⟨heq, abs_head cwd dir root, ?_⟩
  rw [heq]
  show filepathClean (relativizeSpec cwd dir root) = relativizeSpec cwd dir root
  unfold relativizeSpec
  apply string_eq_of_data
  show cleanChars ((filepathClean ("/" ++ trimPrefixStr (filepathAbs cwd dir)
      (filepathAbs cwd root))).data) = _
  rw [filepathClean_slash_append]
  exact cleanChars_rooted_idem _

/-- C7 witness at `cwd = "/h"`, `dir = "/h/d"`, `root = "/h"`. -/
theorem c7_relativize_total_witness :
    ('%' ∉ ("/h" : String).data) ∧ ('%' ∉ ("/h/d" : String).data)
    ∧ ('%' ∉ ("/h" : String).data)
    ∧ (abs "/h" "/h/d" "/h" = relativizeSpec "/h" "/h/d" "/h"
       ∧ (abs "/h" "/h/d" "/h").data.head? = some '/'
       ∧ filepathClean (abs "/h" "/h/d" "/h") = abs "/h" "/h/d" "/h") :=
  ⟨by decide, by decide, by decide,
    c7_relativize_total "/h" "/h/d" "/h" (by decide) (by decide) (by decide)⟩

/-- C8 (counterexample): when template execution fails after bytes
were streamed to the writer, the response status is the implicit 200
of the first write, not 500 — the claim's "500-equivalent error with
no partial body" fails. -/
theorem c8_partial_render_cex :
    ¬ (((handleDirectory "" "d" (.ok []) (.fail "<ul>") freshRW).1).status
        = some 500) := by decide

/-- C8 (amended): on a template-execution failure the code always logs
and appends the error text; the 500 status (and the absence of any
partial body) holds exactly when the failure occurred before any
output byte was written — otherwise the partial body stands with the
implicit 200 status. -/
theorem c8_render_failure (root path written : String) (contents : List FileInfo) :
    handleDirectory root path (.ok contents) (.fail written) freshRW
      = ({ status := some (if written = "" then 500 else 200),
           body := written ++ "Internal Server Error\n" },
         some (mkListing root path contents), true) := by
  have hx : ("Internal Server Error" ++ "\n" : String) = "Internal Server Error\n" := by decide
  by_cases hw : written = ""
  · subst hw
    simp [handleDirectory, httpError, writeHeader, rwWrite, freshRW, hx, str_empty_append]
  · simp [handleDirectory, httpError, writeHeader, rwWrite, freshRW, hw, hx,
      str_empty_append, str_append_assoc]

/-- C9: if reading the directory fails after the path was classified a
directory, the response is a clean 500 — status 500, body exactly the
error line, no listing handed to the template, nothing logged as a
render failure. -/
theorem c9_readdir_error (root url : String) (ex : ExecOutcome) :
    handleServe root url (.ok true) .err ex freshRW
      = some ({ status := some 500, body := "Internal Server Error\n" }, none, false,
          [.statOp (filepathClean url), .readDirOp (filepathClean url),
           .readDirOp (filepathClean url)]) := by
  have hx : ("Internal Server Error" ++ "\n" : String) = "Internal Server Error\n" := by decide
  simp [handleServe, handleDirectory, httpError, writeHeader, rwWrite, freshRW, hx,
    str_empty_append]

/-- C10: a request whose path does not exist gets the standard
not-found response, and the only filesystem operation performed is the
initial stat — no directory enumeration, no file-server delegation. -/
theorem c10_notfound_no_reads (root url : String) (rd : ReadDirOutcome)
    (ex : ExecOutcome) :
    serveRequest root url .errNotExist rd ex freshRW
      = some (notFoundRW freshRW, none, false,
          if (trimPrefixStr url "/").length < url.length
          then [FSOp.statOp (filepathClean (trimPrefixStr url "/"))] else [])
    ∧ (if (trimPrefixStr url "/").length < url.length
        then [FSOp.statOp (filepathClean (trimPrefixStr url "/"))]
        else ([] : List FSOp)).all isStatOp = true := by
  constructor
  · unfold serveRequest
    by_cases hlt : (trimPrefixStr url "/").length < url.length
    · rw [if_pos hlt, if_pos hlt]
      rfl
    · rw [if_neg hlt, if_neg hlt]
  · by_cases hlt : (trimPrefixStr url "/").length < url.length <;>
      simp [hlt, isStatOp]

end Browse
